import Mathlib

/-!
Verification of the ABC samplers in `snl/inference/abc.py`
(rejection ABC, MCMC ABC, and sequential Monte Carlo ABC).

Shallow embedding conventions:
* Python floats are idealised as real numbers; the value `float("inf")`
  produced by `calc_dist` for absent data is modelled by `⊤` in `WithTop ℝ`.
* Parameter vectors and data vectors are `List ℝ`; a failed simulation
  (Python `None`) is `Option.none`.
* The injected randomness (`prior.gen`, `sim_model`, `rng.rand`,
  `rng.randn`) and the external numerical library kernels that the module
  merely calls (`np.linalg.cholesky`, `scipy.linalg.solve_triangular`) are
  supplied by an explicit environment `Env`, indexed by a draw counter that
  the loops thread through their state, so that runs are deterministic
  given an environment, mirroring the seeded-RNG reproducibility of the
  source.  The contents of `np.empty_like` buffers (uninitialised memory)
  are likewise environment-supplied.
* Unbounded `while` loops are modelled with explicit fuel and return
  `Option.none` when the fuel is exhausted; `some` results correspond
  exactly to terminating runs of the source.
-/

noncomputable section

namespace ABC

/-- Parameter / data vectors (`numpy` 1-d arrays). -/
abbrev Vec := List ℝ

/-- Matrices (`numpy` 2-d arrays), row major. -/
abbrev Mat := List (List ℝ)

/-- Python floats extended with `float("inf")` (as `⊤`). -/
abbrev Flt := WithTop ℝ

/-- `np.dot` of two vectors. -/
def dot (a b : Vec) : ℝ := (List.zipWith (· * ·) a b).sum

/-- Elementwise difference of two vectors. -/
def vsub (a b : Vec) : Vec := List.zipWith (· - ·) a b

/-- Elementwise sum of two vectors. -/
def vadd (a b : Vec) : Vec := List.zipWith (· + ·) a b

/-- Scalar-vector product. -/
def smul (c : ℝ) (v : Vec) : Vec := v.map (fun x => c * x)

/-- `np.dot` of a matrix with a vector. -/
def matVec (m : Mat) (v : Vec) : Vec := m.map (fun row => dot row v)

/-- Sum of a list of vectors (as used by `np.mean(ps, axis=0)`). -/
def vsum : List Vec → Vec
  | [] => []
  | v :: t => t.foldl vadd v

/-- `calc_dist(data_1, data_2)`: euclidean distance between two data
vectors; `float("inf")` when either input is `None` (a failed simulation). -/
def calc_dist : Option Vec → Option Vec → Flt
  | none, _ => ⊤
  | _, none => ⊤
  | some data_1, some data_2 =>
      ((Real.sqrt (dot (vsub data_1 data_2) (vsub data_1 data_2)) : ℝ) : Flt)

/-- `scipy.special.logsumexp` on a 1-d array. -/
def logsumexp (xs : List ℝ) : ℝ := Real.log ((xs.map Real.exp).sum)

/-- Inverse-CDF lookup by running subtraction of the target through the
weight list (cumulative-sum inverse-CDF). -/
def dsAux (target : ℝ) : List ℝ → ℕ
  | [] => 0
  | w :: ws => if target < w then 0 else dsAux (target - w) ws + 1

/-- Modelled from the spec: `snl.util.math.discrete_sample` (the
CategoricalResampler), whose source is not part of this tree.  Given a
nonnegative, not necessarily normalised weight vector it returns one index
with probability proportional to the weights, implemented via
cumulative-sum inverse-CDF lookup against a uniform draw `u`. -/
def discrete_sample (ws : List ℝ) (u : ℝ) : ℕ := dsAux (u * ws.sum) ws

/-- `np.max` of a 1-d array (defined on nonempty input; junk `⊤` on `[]`,
where the source would raise). -/
def npMax : List Flt → Flt
  | [] => ⊤
  | a :: t => t.foldl max a

/-- The collaborators and randomness consumed by the samplers: the prior
capability, the stochastic simulator (may return `none` for a failed
simulation; indexed by the draw counter since repeated calls at the same
parameters may differ), the RNG streams, the external linear-algebra
kernels, and the contents of uninitialised `np.empty_like` buffers. -/
structure Env where
  priorGen : ℕ → Vec
  priorEval : Vec → ℝ
  simModel : ℕ → Vec → Option Vec
  unif : ℕ → ℝ
  normal : ℕ → Vec
  chol : Mat → Mat
  solveTri : Mat → Vec → Vec
  empty : ℕ → Vec
  emptyW : ℕ → ℝ

namespace Rejection

/-- The body of `Rejection.run`'s `while n_accepted < n_samples` loop,
with explicit fuel.  State: accepted parameters `ps`, recorded distances
`dist` (the `info=True` bookkeeping), the simulation counter `n_sims`
(also the index into the RNG streams) and `n_accepted`. -/
def runAux (env : Env) (obs_data : Option Vec) (eps : Flt) (n_samples : ℕ) :
    ℕ → List Vec → List Flt → ℕ → ℕ → Option (List Vec × List Flt × ℕ)
  | 0, ps, dist, n_sims, n_accepted =>
      if n_accepted < n_samples then none else some (ps, dist, n_sims)
  | fuel + 1, ps, dist, n_sims, n_accepted =>
      if n_accepted < n_samples then
        let prop_ps := env.priorGen n_sims
        let prop_data := env.simModel n_sims prop_ps
        let prop_dist := calc_dist prop_data obs_data
        if prop_dist < eps then
          runAux env obs_data eps n_samples fuel (ps ++ [prop_ps])
            (dist ++ [prop_dist]) (n_sims + 1) (n_accepted + 1)
        else
          runAux env obs_data eps n_samples fuel ps
            (dist ++ [prop_dist]) (n_sims + 1) n_accepted
      else some (ps, dist, n_sims)

/-- `Rejection.run(obs_data, eps, n_samples, info=True)`: returns the
accepted parameters, the recorded distances and the simulation count. -/
def run (env : Env) (obs_data : Option Vec) (eps : Flt) (n_samples fuel : ℕ) :
    Option (List Vec × List Flt × ℕ) :=
  runAux env obs_data eps n_samples fuel [] [] 0 0

end Rejection

namespace MCMC

/-- The body of `MCMC.run`'s `for i in range(n_samples)` loop.  State:
iteration index `i` (also the index into the RNG streams), current
parameters `cur_ps`, its log prior `cur_log_prior`, the output chain `ps`
and the acceptance counter. -/
def runAux (env : Env) (obs_data : Option Vec) (eps : Flt) (step : ℝ) :
    ℕ → ℕ → Vec → ℝ → List Vec → ℕ → List Vec × ℕ
  | 0, _, _, _, ps, n_accepted => (ps, n_accepted)
  | n + 1, i, cur_ps, cur_log_prior, ps, n_accepted =>
      let prop_ps := vadd cur_ps (smul step (env.normal i))
      let prop_data := env.simModel i prop_ps
      let prop_dist := calc_dist prop_data obs_data
      if prop_dist < eps then
        let prop_log_prior := env.priorEval prop_ps
        if env.unif i < Real.exp (prop_log_prior - cur_log_prior) then
          runAux env obs_data eps step n (i + 1) prop_ps prop_log_prior
            (ps ++ [prop_ps]) (n_accepted + 1)
        else
          runAux env obs_data eps step n (i + 1) cur_ps cur_log_prior
            (ps ++ [cur_ps]) n_accepted
      else
        runAux env obs_data eps step n (i + 1) cur_ps cur_log_prior
          (ps ++ [cur_ps]) n_accepted

/-- `MCMC.run(obs_data, eps, step, n_samples)` started from `init_ps`
(the constructor argument): returns the chain and the acceptance count. -/
def run (env : Env) (obs_data : Option Vec) (eps : Flt) (step : ℝ)
    (n_samples : ℕ) (init_ps : Vec) : List Vec × ℕ :=
  runAux env obs_data eps step n_samples 0 init_ps (env.priorEval init_ps) [] 0

end MCMC

namespace SMC

/-- `np.mean(ps, axis=0)`. -/
def vmean (ps : List Vec) : Vec := (vsum ps).map (fun x => x / (ps.length : ℝ))

/-- Entry `(a, b)` of `np.dot(ps.T, ps) / n_particles`. -/
def gram (ps : List Vec) : Mat :=
  (List.range (ps.headD []).length).map (fun a =>
    (List.range (ps.headD []).length).map (fun b =>
      (ps.map (fun row => row.getD a 0 * row.getD b 0)).sum / (ps.length : ℝ)))

/-- `np.outer(mean, mean)`. -/
def outer (a b : Vec) : Mat := a.map (fun x => b.map (fun y => x * y))

/-- `cov = 2.0 * (np.dot(ps.T, ps) / n_particles - np.outer(mean, mean))`,
with `mean = np.mean(ps, axis=0)`. -/
def covMat (ps : List Vec) : Mat :=
  List.zipWith (fun r1 r2 => List.zipWith (fun x y => 2 * (x - y)) r1 r2)
    (gram ps) (outer (vmean ps) (vmean ps))

/-- One round of the `while dist > eps` proposal loop inside
`sample_next_population`: starting from the current candidate `cur` with
distance `dist` (initially the `np.empty_like` buffer contents and
`float("inf")`), repeatedly draw an ancestor index over `weights`, perturb
it with the Cholesky factor `std`, simulate and recompute the distance,
until the distance is not above `eps`.  `r` is the draw counter, `n_sims`
the simulation counter; one unit of fuel per simulation. -/
def attemptLoop (env : Env) (weights : List ℝ) (ps : List Vec) (std : Mat)
    (obs_data : Option Vec) (eps : Flt) :
    ℕ → Flt → Vec → ℕ → ℕ → Option (Vec × ℕ × ℕ)
  | 0, dist, cur, r, n_sims =>
      if eps < dist then none else some (cur, r, n_sims)
  | fuel + 1, dist, cur, r, n_sims =>
      if eps < dist then
        let idx := discrete_sample weights (env.unif r)
        let new_p := vadd (ps.getD idx []) (matVec std (env.normal r))
        let data := env.simModel r new_p
        attemptLoop env weights ps std obs_data eps fuel
          (calc_dist data obs_data) new_p (r + 1) (n_sims + 1)
      else some (cur, r, n_sims)

/-- The `for i in range(n_particles)` loop of `sample_next_population`:
for each output slot, run the proposal loop and then compute the
unnormalised new log weight
`prior.eval(new_p) - logsumexp(log_weights + log_kernel)` with
`log_kernel[j] = -0.5 * ‖solve_triangular(std, new_p - ps[j])‖²`.
`k` counts the remaining slots, `i` the slot index. -/
def slotLoop (env : Env) (weights : List ℝ) (ps : List Vec) (std : Mat)
    (obs_data : Option Vec) (eps : Flt) (log_weights : List ℝ) (afuel : ℕ) :
    ℕ → ℕ → ℕ → ℕ → List Vec → List ℝ → Option (List Vec × List ℝ × ℕ × ℕ)
  | 0, _, r, n_sims, accP, accW => some (accP, accW, r, n_sims)
  | k + 1, i, r, n_sims, accP, accW =>
      match attemptLoop env weights ps std obs_data eps afuel ⊤ (env.empty i)
          r n_sims with
      | none => none
      | some (new_p, r1, n1) =>
          let log_kernel := ps.map (fun pj =>
            -(1 / 2) * (((env.solveTri std (vsub new_p pj)).map
              (fun x => x ^ 2)).sum))
          let w := env.priorEval new_p -
            logsumexp (List.zipWith (· + ·) log_weights log_kernel)
          slotLoop env weights ps std obs_data eps log_weights afuel k (i + 1)
            r1 n1 (accP ++ [new_p]) (accW ++ [w])

/-- `SMC.sample_next_population(ps, log_weights, obs_data, eps)`: builds
`n_particles = ps.shape[0]` new particles, computes their unnormalised log
weights, then normalises (`new_log_weights -= logsumexp(new_log_weights)`).
When `log_weights` is longer than `ps` the source's
`np.empty_like(log_weights)` buffer keeps uninitialised entries beyond the
filled prefix; those are the environment's `emptyW` values.  The
elementwise `log_weights + log_kernel` is modelled by `zipWith (+)`,
which agrees with numpy whenever the two vectors have equal length —
every population step that the source survives, since a length mismatch
requires a population shorter than `n_particles`, where either the
zero/singular covariance makes `np.linalg.cholesky` raise (one particle)
or the numpy addition itself raises a broadcast error (otherwise);
`zipWith` truncates there instead of crashing, and no theorem below
depends on the weight values of that regime.  Returns
`(new_ps, new_log_weights, n_sims, r)`. -/
def sample_next_population (env : Env) (ps : List Vec) (log_weights : List ℝ)
    (obs_data : Option Vec) (eps : Flt) (r fuel : ℕ) :
    Option (List Vec × List ℝ × ℕ × ℕ) :=
  let weights := log_weights.map Real.exp
  let std := env.chol (covMat ps)
  match slotLoop env weights ps std obs_data eps log_weights fuel ps.length 0
      r 0 [] [] with
  | none => none
  | some (new_ps, accW, r1, n_sims) =>
      let new_log_weights := accW ++
        (List.range (log_weights.length - ps.length)).map env.emptyW
      some (new_ps,
        new_log_weights.map (fun x => x - logsumexp new_log_weights),
        n_sims, r1)

/-- `SMC.sample_initial_population(obs_data, n_particles, n_initial_round)`:
draw `n_initial_round` prior samples, simulate each, record distances.  If
`n_initial_round > n_particles`, sort by distance ascending, keep the best
`n_quantile = int((n_particles / n_initial_round) * n_initial_round)`
samples and return the distance at rank `n_quantile` as the initial
tolerance; otherwise return all samples and the maximum distance.  Returns
`(ps, n_sims, eps_init)`. -/
def sample_initial_population (env : Env) (obs_data : Option Vec)
    (n_particles n_initial_round : ℕ) : List Vec × ℕ × Flt :=
  let ps := (List.range n_initial_round).map (fun i => env.priorGen i)
  let ds := (List.range n_initial_round).map (fun i =>
    calc_dist (env.simModel i (env.priorGen i)) obs_data)
  if n_particles < n_initial_round then
    let quantile : ℚ := (n_particles : ℚ) / (n_initial_round : ℚ)
    let n_quantile : ℕ := Nat.floor (quantile * (n_initial_round : ℚ))
    let sorted := (ps.zip ds).mergeSort (fun a b => decide (a.2 ≤ b.2))
    let eps_init := (sorted.map Prod.snd).getD n_quantile ⊤
    ((sorted.map Prod.fst).take n_quantile, n_initial_round, eps_init)
  else
    (ps, n_initial_round, npMax ds)

/-- `SMC.resample_population(ps, log_weights)`: draw `ps.shape[0]` indices
over `np.exp(log_weights)` and index into the population.  `r` is the draw
counter. -/
def resample_population (env : Env) (ps : List Vec) (log_weights : List ℝ)
    (r : ℕ) : List Vec :=
  (List.range ps.length).map (fun j =>
    ps.getD (discrete_sample (log_weights.map Real.exp) (env.unif (r + j))) [])

/-- The per-iteration snapshots accumulated by `SMC.run` (the RunHistory):
`all_ps, all_log_weights, all_eps, all_log_ess, all_n_sims`. -/
structure History where
  all_ps : List (List Vec)
  all_log_weights : List (List ℝ)
  all_eps : List Flt
  all_log_ess : List ℝ
  all_n_sims : List ℕ

/-- The `while n_sims < n_sims_budget` loop of `SMC.run`: decay the
tolerance, sample the next population, compute the effective sample size,
resample when degenerate, append the iteration's snapshot, and stop once
the budget has been reached.  (The source's
`except SimulationBudgetExceeded` handler is dead code: that exception
name is undefined and `sample_next_population` never raises it, so no
budget check interrupts a population-construction step.)  `r` is the draw
counter. -/
def runLoop (env : Env) (obs_data : Option Vec) (eps_decay : ℝ)
    (n_particles n_sims_budget : ℕ) (ess_min : ℝ) :
    ℕ → List Vec → List ℝ → Flt → ℕ → ℕ → History → Option History
  | 0, _, _, _, n_sims, _, hist =>
      if n_sims < n_sims_budget then none else some hist
  | fuel + 1, ps, log_weights, eps, n_sims, r, hist =>
      if n_sims < n_sims_budget then
        let eps1 := eps.map (fun x => x * eps_decay)
        match sample_next_population env ps log_weights obs_data eps1 r fuel with
        | none => none
        | some (ps1, lw1, n_new_sims, r1) =>
            let n_sims1 := n_sims + n_new_sims
            let log_ess := -(logsumexp (lw1.map (fun w => 2 * w))) -
              Real.log (n_particles : ℝ)
            let degenerate := log_ess < Real.log ess_min
            let ps2 := if degenerate then resample_population env ps1 lw1 r1
              else ps1
            let lw2 := if degenerate then
              List.replicate n_particles (-Real.log (n_particles : ℝ)) else lw1
            let r2 := if degenerate then r1 + ps1.length else r1
            let hist1 : History :=
              ⟨hist.all_ps ++ [ps2], hist.all_log_weights ++ [lw2],
                hist.all_eps ++ [eps1], hist.all_log_ess ++ [log_ess],
                hist.all_n_sims ++ [n_sims1]⟩
            if n_sims_budget ≤ n_sims1 then some hist1
            else runLoop env obs_data eps_decay n_particles n_sims_budget
              ess_min fuel ps2 lw2 eps1 n_sims1 r2 hist1
      else some hist

/-- `SMC.run(obs_data, n_initial_round, eps_decay, n_particles,
n_sims_budget, ess_min)`: sample the initial population, record its
snapshot (uniform log weights `np.full(n_particles, -log(n_particles))`,
log-ESS `0.0`), then iterate. -/
def run (env : Env) (obs_data : Option Vec) (n_initial_round : ℕ)
    (eps_decay : ℝ) (n_particles n_sims_budget : ℕ) (ess_min : ℝ)
    (fuel : ℕ) : Option History :=
  let init := sample_initial_population env obs_data n_particles
    n_initial_round
  let ps := init.1
  let n_sims := init.2.1
  let eps := init.2.2
  let log_weights := List.replicate n_particles (-Real.log (n_particles : ℝ))
  let hist : History := ⟨[ps], [log_weights], [eps], [0], [n_sims]⟩
  runLoop env obs_data eps_decay n_particles n_sims_budget ess_min fuel ps
    log_weights eps n_sims n_sims hist

end SMC

/-! ### Facts about `logsumexp` -/

lemma sum_map_mul_const (l : List ℝ) (c : ℝ) :
    (l.map (fun x => x * c)).sum = l.sum * c := by
  induction l with
  | nil => simp
  | cons x t ih => simp [ih, add_mul]

lemma sum_map_exp_pos (x : ℝ) (t : List ℝ) :
    0 < (((x :: t).map Real.exp).sum) := by
  have h1 : (0 : ℝ) ≤ ((t.map Real.exp).sum) :=
    List.sum_nonneg (by
      intro y hy
      obtain ⟨z, _, rfl⟩ := List.mem_map.mp hy
      exact (Real.exp_pos z).le)
  have h2 : 0 < Real.exp x := Real.exp_pos x
  simp only [List.map_cons, List.sum_cons]
  linarith

lemma sum_exp_pos_of_ne_nil {l : List ℝ} (h : l ≠ []) :
    0 < ((l.map Real.exp).sum) := by
  cases l with
  | nil => exact absurd rfl h
  | cons x t => exact sum_map_exp_pos x t

/-- Line 325 of the source: subtracting `logsumexp` of a weight vector
from each entry yields a vector whose `logsumexp` is exactly zero (for the
empty vector this holds by the `Real.log 0 = 0` junk value). -/
lemma logsumexp_normalize (xs : List ℝ) :
    logsumexp (xs.map (fun x => x - logsumexp xs)) = 0 := by
  cases hxs : xs with
  | nil => simp [logsumexp]
  | cons x t =>
      set c := logsumexp (x :: t) with hc
      have hS : 0 < (((x :: t).map Real.exp).sum) := sum_map_exp_pos x t
      have hmap : ((x :: t).map (fun y => y - c)).map Real.exp =
          ((x :: t).map Real.exp).map (fun y => y * Real.exp (-c)) := by
        simp only [List.map_map]
        refine List.map_congr_left ?_
        intro a _
        simp [sub_eq_add_neg, Real.exp_add]
      unfold logsumexp
      rw [hmap, sum_map_mul_const]
      rw [Real.log_mul (ne_of_gt hS) (ne_of_gt (Real.exp_pos _)),
        Real.log_exp]
      have : Real.log (((x :: t).map Real.exp).sum) = c := by
        simp [hc, logsumexp]
      rw [this]
      ring

/-- The uniform initial log weights `np.full(n, -log n)` are normalised. -/
lemma logsumexp_replicate (n : ℕ) (hn : 0 < n) :
    logsumexp (List.replicate n (-Real.log (n : ℝ))) = 0 := by
  have hn' : (0 : ℝ) < (n : ℝ) := by exact_mod_cast hn
  unfold logsumexp
  rw [List.map_replicate, List.sum_replicate, nsmul_eq_mul]
  rw [Real.exp_neg, Real.exp_log hn']
  rw [mul_inv_cancel₀ (ne_of_gt hn')]
  exact Real.log_one

/-! ### Cauchy–Schwarz for lists and the effective-sample-size bound -/

lemma sum_map_mul_left_const (l : List ℝ) (c : ℝ) :
    (l.map (fun x => c * x)).sum = c * l.sum := by
  induction l with
  | nil => simp
  | cons x t ih => simp [ih, mul_add]

lemma sum_two_mul_le (a : ℝ) (l : List ℝ) :
    (l.map (fun x => 2 * a * x)).sum ≤
      (l.length : ℝ) * a ^ 2 + (l.map (fun x => x ^ 2)).sum := by
  induction l with
  | nil => simp
  | cons x t ih =>
      simp only [List.map_cons, List.sum_cons, List.length_cons]
      have h1 : 2 * a * x ≤ a ^ 2 + x ^ 2 := two_mul_le_add_sq a x
      push_cast
      linarith

lemma list_sq_sum_le (l : List ℝ) :
    l.sum ^ 2 ≤ (l.length : ℝ) * (l.map (fun x => x ^ 2)).sum := by
  induction l with
  | nil => simp
  | cons x t ih =>
      simp only [List.sum_cons, List.length_cons, List.map_cons]
      have h2 : (t.map (fun y => 2 * x * y)).sum ≤
          (t.length : ℝ) * x ^ 2 + (t.map (fun y => y ^ 2)).sum :=
        sum_two_mul_le x t
      have h3 : (t.map (fun y => 2 * x * y)).sum = 2 * x * t.sum := by
        have := sum_map_mul_left_const t (2 * x)
        simpa using this
      have hq : (0 : ℝ) ≤ (t.map (fun y => y ^ 2)).sum :=
        List.sum_nonneg (by
          intro y hy
          obtain ⟨z, _, rfl⟩ := List.mem_map.mp hy
          positivity)
      push_cast
      nlinarith [ih]

/-- The effective-sample-size statistic of any normalised log-weight
vector of length at most `n` is nonpositive:
`-logsumexp(2 * lw) - log n ≤ 0`. -/
lemma ess_core (lw : List ℝ) (n : ℕ) (hne : lw ≠ []) (hlen : lw.length ≤ n)
    (hnorm : logsumexp lw = 0) :
    -(logsumexp (lw.map (fun w => 2 * w))) - Real.log (n : ℝ) ≤ 0 := by
  have hS : 0 < ((lw.map Real.exp).sum) := sum_exp_pos_of_ne_nil hne
  have hS1 : ((lw.map Real.exp).sum) = 1 := by
    have := Real.exp_log hS
    rw [show Real.log ((lw.map Real.exp).sum) = 0 from hnorm] at this
    simpa [Real.exp_zero] using this.symm
  have hmap : (lw.map (fun w => 2 * w)).map Real.exp =
      (lw.map Real.exp).map (fun y => y ^ 2) := by
    simp only [List.map_map]
    refine List.map_congr_left ?_
    intro a _
    simp [two_mul, Real.exp_add, sq]
  have hcs : ((lw.map Real.exp).sum) ^ 2 ≤
      ((lw.map Real.exp).length : ℝ) *
        ((lw.map Real.exp).map (fun y => y ^ 2)).sum :=
    list_sq_sum_le (lw.map Real.exp)
  set Q := ((lw.map Real.exp).map (fun y => y ^ 2)).sum with hQ
  have hQ0 : (0 : ℝ) ≤ Q :=
    List.sum_nonneg (by
      intro y hy
      obtain ⟨z, _, rfl⟩ := List.mem_map.mp hy
      positivity)
  have hm : ((lw.map Real.exp).length : ℝ) ≤ (n : ℝ) := by
    rw [List.length_map]
    exact_mod_cast hlen
  have h1 : (1 : ℝ) ≤ (n : ℝ) * Q := by
    have h1m : (1 : ℝ) ≤ ((lw.map Real.exp).length : ℝ) * Q := by
      rw [hS1] at hcs
      simpa using hcs
    nlinarith
  have hn0 : (0 : ℝ) < (n : ℝ) := by
    have : lw.length ≠ 0 := by
      intro h
      exact hne (List.length_eq_zero.mp h)
    have : 0 < lw.length := Nat.pos_of_ne_zero this
    have : 0 < n := lt_of_lt_of_le this hlen
    exact_mod_cast this
  have hQpos : 0 < Q := by nlinarith
  have hinv : ((n : ℝ))⁻¹ ≤ Q := by
    rw [inv_le_iff_one_le_mul₀ hn0]
    linarith [h1]
  have hlog : Real.log ((n : ℝ))⁻¹ ≤ Real.log Q :=
    Real.log_le_log (by positivity) hinv
  rw [Real.log_inv] at hlog
  have hlse : logsumexp (lw.map (fun w => 2 * w)) = Real.log Q := by
    unfold logsumexp
    rw [hmap]
  rw [hlse]
  linarith

/-! ### Structural lemmas about `sample_next_population` -/

namespace SMC

lemma slotLoop_length (env : Env) (weights : List ℝ) (ps : List Vec)
    (std : Mat) (obs : Option Vec) (eps : Flt) (lw : List ℝ) (afuel : ℕ) :
    ∀ k i r n accP accW out,
      slotLoop env weights ps std obs eps lw afuel k i r n accP accW =
        some out →
      out.1.length = accP.length + k ∧ out.2.1.length = accW.length + k := by
  intro k
  induction k with
  | zero =>
      intro i r n accP accW out h
      rw [slotLoop] at h
      injection h with h
      subst h
      simp
  | succ k ih =>
      intro i r n accP accW out h
      rw [slotLoop] at h
      cases hatt : attemptLoop env weights ps std obs eps afuel ⊤ (env.empty i)
          r n with
      | none => rw [hatt] at h; exact absurd h (by simp)
      | some res =>
          obtain ⟨p, r1, n1⟩ := res
          rw [hatt] at h
          simp only at h
          have := ih (i + 1) r1 n1 (accP ++ [p]) (accW ++ [_]) out h
          simpa [List.length_append, Nat.add_assoc, Nat.add_comm 1 k]
            using this

lemma sample_next_population_spec (env : Env) (ps : List Vec)
    (lw : List ℝ) (obs : Option Vec) (eps : Flt) (r fuel : ℕ)
    (out : List Vec × List ℝ × ℕ × ℕ)
    (h : sample_next_population env ps lw obs eps r fuel = some out) :
    logsumexp out.2.1 = 0 ∧ out.1.length = ps.length ∧
      out.2.1.length = ps.length + (lw.length - ps.length) := by
  unfold sample_next_population at h
  dsimp only at h
  cases hsl : slotLoop env (lw.map Real.exp) ps (env.chol (covMat ps))
      obs eps lw fuel ps.length 0 r 0 [] [] with
  | none => rw [hsl] at h; exact absurd h (by simp)
  | some res =>
      obtain ⟨new_ps, accW, r1, n_sims⟩ := res
      rw [hsl] at h
      simp only at h
      obtain ⟨hl1, hl2⟩ := slotLoop_length env (lw.map Real.exp) ps
        (env.chol (covMat ps)) obs eps lw fuel ps.length 0 r 0 [] []
        (new_ps, accW, r1, n_sims) hsl
      injection h with h
      subst h
      refine ⟨logsumexp_normalize _, ?_, ?_⟩
      · simpa using hl1
      · simp only [List.length_map, List.length_append, List.length_range]
        simpa using congrArg (· + (lw.length - ps.length)) hl2

lemma resample_population_length (env : Env) (ps : List Vec)
    (lw : List ℝ) (r : ℕ) :
    (resample_population env ps lw r).length = ps.length := by
  simp [resample_population]

/-! ### Invariants maintained by the `SMC.run` iteration loop -/

lemma runLoop_norm (env : Env) (obs : Option Vec) (d : ℝ)
    (n_p budget : ℕ) (essmin : ℝ) (hn : 0 < n_p) :
    ∀ fuel ps lw eps n_sims r hist out,
      runLoop env obs d n_p budget essmin fuel ps lw eps n_sims r hist =
        some out →
      (∀ w ∈ hist.all_log_weights, logsumexp w = 0) →
      ∀ w ∈ out.all_log_weights, logsumexp w = 0 := by
  intro fuel
  induction fuel with
  | zero =>
      intro ps lw eps n_sims r hist out h hinv
      rw [runLoop] at h
      by_cases hb : n_sims < budget
      · rw [if_pos hb] at h; exact absurd h (by simp)
      · rw [if_neg hb] at h; injection h with h; subst h; exact hinv
  | succ fuel ih =>
      intro ps lw eps n_sims r hist out h hinv
      rw [runLoop] at h
      by_cases hb : n_sims < budget
      · rw [if_pos hb] at h
        dsimp only at h
        cases hsnp : sample_next_population env ps lw obs
            (eps.map (fun x => x * d)) r fuel with
        | none => rw [hsnp] at h; exact absurd h (by simp)
        | some res =>
            obtain ⟨ps1, lw1, nn, r1⟩ := res
            rw [hsnp] at h
            dsimp only at h
            have hlw1 : logsumexp lw1 = 0 :=
              (sample_next_population_spec env ps lw obs
                (eps.map (fun x => x * d)) r fuel (ps1, lw1, nn, r1) hsnp).1
            by_cases hdeg : -(logsumexp (lw1.map fun w => 2 * w)) -
                Real.log (n_p : ℝ) < Real.log essmin
            · rw [if_pos hdeg, if_pos hdeg, if_pos hdeg] at h
              have hinv1 : ∀ w ∈ hist.all_log_weights ++
                  [List.replicate n_p (-Real.log (n_p : ℝ))],
                  logsumexp w = 0 := by
                intro w hw
                rcases List.mem_append.mp hw with hw | hw
                · exact hinv w hw
                · rw [List.mem_singleton.mp hw]
                  exact logsumexp_replicate n_p hn
              by_cases hstop : budget ≤ n_sims + nn
              · rw [if_pos hstop] at h
                injection h with h
                subst h
                exact hinv1
              · rw [if_neg hstop] at h
                exact ih _ _ _ _ _ _ _ h hinv1
            · rw [if_neg hdeg, if_neg hdeg, if_neg hdeg] at h
              have hinv1 : ∀ w ∈ hist.all_log_weights ++ [lw1],
                  logsumexp w = 0 := by
                intro w hw
                rcases List.mem_append.mp hw with hw | hw
                · exact hinv w hw
                · rw [List.mem_singleton.mp hw]
                  exact hlw1
              by_cases hstop : budget ≤ n_sims + nn
              · rw [if_pos hstop] at h
                injection h with h
                subst h
                exact hinv1
              · rw [if_neg hstop] at h
                exact ih _ _ _ _ _ _ _ h hinv1
      · rw [if_neg hb] at h; injection h with h; subst h; exact hinv

lemma runLoop_ess (env : Env) (obs : Option Vec) (d : ℝ)
    (n_p budget : ℕ) (essmin : ℝ) (hn : 0 < n_p) :
    ∀ fuel ps lw eps n_sims r hist out,
      runLoop env obs d n_p budget essmin fuel ps lw eps n_sims r hist =
        some out →
      lw.length = n_p → ps.length ≤ n_p →
      (∀ e ∈ hist.all_log_ess, e ≤ 0) →
      ∀ e ∈ out.all_log_ess, e ≤ 0 := by
  intro fuel
  induction fuel with
  | zero =>
      intro ps lw eps n_sims r hist out h _ _ hinv
      rw [runLoop] at h
      by_cases hb : n_sims < budget
      · rw [if_pos hb] at h; exact absurd h (by simp)
      · rw [if_neg hb] at h; injection h with h; subst h; exact hinv
  | succ fuel ih =>
      intro ps lw eps n_sims r hist out h hlw hps hinv
      rw [runLoop] at h
      by_cases hb : n_sims < budget
      · rw [if_pos hb] at h
        dsimp only at h
        cases hsnp : sample_next_population env ps lw obs
            (eps.map (fun x => x * d)) r fuel with
        | none => rw [hsnp] at h; exact absurd h (by simp)
        | some res =>
            obtain ⟨ps1, lw1, nn, r1⟩ := res
            rw [hsnp] at h
            dsimp only at h
            obtain ⟨hlw1norm, hps1, hlw1len⟩ :=
              sample_next_population_spec env ps lw obs
                (eps.map (fun x => x * d)) r fuel (ps1, lw1, nn, r1) hsnp
            have hlen1 : lw1.length = n_p := by
              rw [hlw1len, hlw]
              exact Nat.add_sub_cancel' hps
            have hne1 : lw1 ≠ [] := by
              intro hnil
              rw [hnil] at hlen1
              simp at hlen1
              omega
            have hess : -(logsumexp (lw1.map fun w => 2 * w)) -
                Real.log (n_p : ℝ) ≤ 0 :=
              ess_core lw1 n_p hne1 (le_of_eq hlen1) hlw1norm
            have hinv1 : ∀ e ∈ hist.all_log_ess ++
                [-(logsumexp (lw1.map fun w => 2 * w)) - Real.log (n_p : ℝ)],
                e ≤ 0 := by
              intro e he
              rcases List.mem_append.mp he with he | he
              · exact hinv e he
              · rw [List.mem_singleton.mp he]
                exact hess
            by_cases hdeg : -(logsumexp (lw1.map fun w => 2 * w)) -
                Real.log (n_p : ℝ) < Real.log essmin
            · rw [if_pos hdeg, if_pos hdeg, if_pos hdeg] at h
              by_cases hstop : budget ≤ n_sims + nn
              · rw [if_pos hstop] at h
                injection h with h
                subst h
                exact hinv1
              · rw [if_neg hstop] at h
                refine ih _ _ _ _ _ _ _ h (by simp) ?_ hinv1
                rw [resample_population_length, hps1]
                exact hps
            · rw [if_neg hdeg, if_neg hdeg, if_neg hdeg] at h
              by_cases hstop : budget ≤ n_sims + nn
              · rw [if_pos hstop] at h
                injection h with h
                subst h
                exact hinv1
              · rw [if_neg hstop] at h
                refine ih _ _ _ _ _ _ _ h hlen1 ?_ hinv1
                rw [hps1]
                exact hps
      · rw [if_neg hb] at h; injection h with h; subst h; exact hinv

lemma runLoop_eps (env : Env) (obs : Option Vec) (d : ℝ)
    (n_p budget : ℕ) (essmin : ℝ) (hd0 : 0 < d) (hd1 : d < 1) :
    ∀ fuel ps lw eps n_sims r hist out (x : ℝ),
      runLoop env obs d n_p budget essmin fuel ps lw eps n_sims r hist =
        some out →
      eps = (x : Flt) → 0 < x →
      hist.all_eps.Chain' (fun a b => b < a) →
      hist.all_eps.getLast? = some eps →
      out.all_eps.Chain' (fun a b => b < a) := by
  intro fuel
  induction fuel with
  | zero =>
      intro ps lw eps n_sims r hist out x h _ _ hchain _
      rw [runLoop] at h
      by_cases hb : n_sims < budget
      · rw [if_pos hb] at h; exact absurd h (by simp)
      · rw [if_neg hb] at h; injection h with h; subst h; exact hchain
  | succ fuel ih =>
      intro ps lw eps n_sims r hist out x h hx hxpos hchain hlast
      rw [runLoop] at h
      by_cases hb : n_sims < budget
      · rw [if_pos hb] at h
        dsimp only at h
        cases hsnp : sample_next_population env ps lw obs
            (eps.map (fun x => x * d)) r fuel with
        | none => rw [hsnp] at h; exact absurd h (by simp)
        | some res =>
            obtain ⟨ps1, lw1, nn, r1⟩ := res
            rw [hsnp] at h
            dsimp only at h
            have heps1 : eps.map (fun y => y * d) = ((x * d : ℝ) : Flt) := by
              rw [hx, WithTop.map_coe]
            have hdec : ((x * d : ℝ) : Flt) < (x : Flt) := by
              rw [WithTop.coe_lt_coe]
              exact mul_lt_of_lt_one_right hxpos hd1
            have hchain1 : (hist.all_eps ++
                [eps.map (fun y => y * d)]).Chain' (fun a b => b < a) := by
              rw [List.chain'_append]
              refine ⟨hchain, List.chain'_singleton _, ?_⟩
              intro a ha b hb
              rw [hlast] at ha
              rw [Option.mem_def, Option.some.injEq] at ha
              simp only [List.head?_cons, Option.mem_def, Option.some.injEq]
                at hb
              subst ha
              subst hb
              rw [heps1, hx]
              exact hdec
            have hlast1 : (hist.all_eps ++
                [eps.map (fun y => y * d)]).getLast? =
                some (eps.map (fun y => y * d)) := by
              rw [List.getLast?_concat]
            by_cases hdeg : -(logsumexp (lw1.map fun w => 2 * w)) -
                Real.log (n_p : ℝ) < Real.log essmin
            · rw [if_pos hdeg, if_pos hdeg, if_pos hdeg] at h
              by_cases hstop : budget ≤ n_sims + nn
              · rw [if_pos hstop] at h
                injection h with h
                subst h
                exact hchain1
              · rw [if_neg hstop] at h
                exact ih _ _ _ _ _ _ _ (x * d) h heps1
                  (mul_pos hxpos hd0) hchain1 hlast1
            · rw [if_neg hdeg, if_neg hdeg, if_neg hdeg] at h
              by_cases hstop : budget ≤ n_sims + nn
              · rw [if_pos hstop] at h
                injection h with h
                subst h
                exact hchain1
              · rw [if_neg hstop] at h
                exact ih _ _ _ _ _ _ _ (x * d) h heps1
                  (mul_pos hxpos hd0) hchain1 hlast1
      · rw [if_neg hb] at h; injection h with h; subst h; exact hchain

/-- In exact arithmetic the source's
`n_quantile = int((n_particles / n_initial_round) * n_initial_round)`
is `n_particles` itself (the shortfall noted in the spec is a
floating-point rounding artefact). -/
lemma n_quantile_eq (n_p n_r : ℕ) (h : 0 < n_r) :
    Nat.floor (((n_p : ℚ) / (n_r : ℚ)) * (n_r : ℚ)) = n_p := by
  rw [div_mul_cancel₀]
  · exact Nat.floor_natCast n_p
  · exact_mod_cast Nat.pos_iff_ne_zero.mp h

lemma sample_initial_population_length_le (env : Env) (obs : Option Vec)
    (n_p n_r : ℕ) :
    (sample_initial_population env obs n_p n_r).1.length ≤ n_p := by
  unfold sample_initial_population
  dsimp only
  by_cases h : n_p < n_r
  · rw [if_pos h]
    dsimp only
    rw [List.length_take, n_quantile_eq n_p n_r (by omega)]
    exact min_le_left _ _
  · rw [if_neg h]
    dsimp only
    rw [List.length_map, List.length_range]
    omega

end SMC

/-! ### The claims -/

/-- C2: for every SMC run, every entry of the returned `all_log_weights`
(the initial uniform weights, each normalised output of
`sample_next_population`, and each uniform reset after resampling) has
`logsumexp` exactly equal to `0`. -/
theorem C2_all_log_weights_normalized (env : Env) (obs : Option Vec)
    (n_r : ℕ) (d : ℝ) (n_p budget : ℕ) (essmin : ℝ) (fuel : ℕ)
    (hist : SMC.History)
    (h : SMC.run env obs n_r d n_p budget essmin fuel = some hist)
    (hn : 0 < n_p) :
    ∀ w ∈ hist.all_log_weights, logsumexp w = 0 := by
  unfold SMC.run at h
  dsimp only at h
  refine SMC.runLoop_norm env obs d n_p budget essmin hn fuel _ _ _ _ _ _ _
    h ?_
  intro w hw
  rw [List.mem_singleton.mp hw]
  exact logsumexp_replicate n_p hn

/-- C7: the effective-sample-size statistic
`log_ess = -logsumexp(2 * log_weights) - log n_particles` of any
normalised log-weight vector (of length at most `n_particles`) is
nonpositive, and consequently every entry of the `all_log_ess` sequence
returned by `SMC.run` is at most `0`. -/
theorem C7_log_ess_nonpositive :
    (∀ (lw : List ℝ) (n : ℕ), lw ≠ [] → lw.length ≤ n →
      logsumexp lw = 0 →
      -(logsumexp (lw.map (fun w => 2 * w))) - Real.log (n : ℝ) ≤ 0) ∧
    (∀ (env : Env) (obs : Option Vec) (n_r : ℕ) (d : ℝ)
      (n_p budget : ℕ) (essmin : ℝ) (fuel : ℕ) (hist : SMC.History),
      SMC.run env obs n_r d n_p budget essmin fuel = some hist → 0 < n_p →
      ∀ e ∈ hist.all_log_ess, e ≤ 0) := by
  constructor
  · exact ess_core
  · intro env obs n_r d n_p budget essmin fuel hist h hn
    unfold SMC.run at h
    dsimp only at h
    refine SMC.runLoop_ess env obs d n_p budget essmin hn fuel _ _ _ _ _ _ _
      h (by simp) (SMC.sample_initial_population_length_le env obs n_p n_r)
      ?_
    intro e he
    rw [List.mem_singleton.mp he]

/-- C8 (amended): the sequence of tolerances `all_eps` recorded by
`SMC.run` is strictly decreasing provided `0 < eps_decay < 1` *and* the
initial tolerance produced by `sample_initial_population` is positive and
finite.  (When the initial tolerance is `0` or `inf` it is a fixed point
of the decay and the claim as stated fails; see the counterexample.) -/
theorem C8_all_eps_strictly_decreasing (env : Env) (obs : Option Vec)
    (n_r : ℕ) (d : ℝ) (n_p budget : ℕ) (essmin : ℝ) (fuel : ℕ)
    (hist : SMC.History) (x : ℝ)
    (h : SMC.run env obs n_r d n_p budget essmin fuel = some hist)
    (hd0 : 0 < d) (hd1 : d < 1)
    (hx : (SMC.sample_initial_population env obs n_p n_r).2.2 = (x : Flt))
    (hxpos : 0 < x) :
    hist.all_eps.Chain' (fun a b => b < a) := by
  unfold SMC.run at h
  dsimp only at h
  refine SMC.runLoop_eps env obs d n_p budget essmin hd0 hd1 fuel _ _ _ _ _
    _ _ x h hx hxpos (List.chain'_singleton _) ?_
  simp

/-! ### Rejection sampler: invariant of the acceptance loop -/

lemma calc_dist_none_left (x : Option Vec) : calc_dist none x = ⊤ := by
  cases x <;> rfl

lemma calc_dist_none_right (x : Option Vec) : calc_dist x none = ⊤ := by
  cases x <;> rfl

/-- The acceptance property carried by `Rejection.runAux`: every accepted
parameter comes from a draw whose simulation succeeded and whose recorded
distance was strictly below `eps`. -/
def RejAccept (env : Env) (obs : Option Vec) (eps : Flt) (n_sims : ℕ)
    (p : Vec) : Prop :=
  ∃ k, k < n_sims ∧ p = env.priorGen k ∧
    env.simModel k (env.priorGen k) ≠ none ∧
    calc_dist (env.simModel k (env.priorGen k)) obs < eps

lemma Rejection.runAux_spec (env : Env) (obs : Option Vec) (eps : Flt)
    (n_samples : ℕ) :
    ∀ fuel ps ds n_sims n_acc out,
      Rejection.runAux env obs eps n_samples fuel ps ds n_sims n_acc =
        some out →
      ps.length = n_acc → n_acc ≤ n_sims → n_acc ≤ n_samples →
      (∀ p ∈ ps, RejAccept env obs eps n_sims p) →
      out.1.length = n_samples ∧ n_samples ≤ out.2.2 ∧
        ∀ p ∈ out.1, RejAccept env obs eps out.2.2 p := by
  intro fuel
  induction fuel with
  | zero =>
      intro ps ds n_sims n_acc out h hlen hacc_sims hacc_n hinv
      rw [Rejection.runAux] at h
      by_cases hb : n_acc < n_samples
      · rw [if_pos hb] at h; exact absurd h (by simp)
      · rw [if_neg hb] at h
        injection h with h
        subst h
        have : n_acc = n_samples := le_antisymm hacc_n (not_lt.mp hb)
        exact ⟨by rw [hlen, this], by dsimp only; omega, hinv⟩
  | succ fuel ih =>
      intro ps ds n_sims n_acc out h hlen hacc_sims hacc_n hinv
      rw [Rejection.runAux] at h
      by_cases hb : n_acc < n_samples
      · rw [if_pos hb] at h
        dsimp only at h
        by_cases hd : calc_dist (env.simModel n_sims (env.priorGen n_sims))
            obs < eps
        · rw [if_pos hd] at h
          refine ih _ _ _ _ _ h ?_ (by omega) (by omega) ?_
          · rw [List.length_append, hlen]; rfl
          · intro p hp
            rcases List.mem_append.mp hp with hp | hp
            · obtain ⟨k, hk, hkp⟩ := hinv p hp
              exact ⟨k, by omega, hkp⟩
            · rw [List.mem_singleton.mp hp]
              refine ⟨n_sims, by omega, rfl, ?_, hd⟩
              intro hnone
              rw [hnone, calc_dist_none_left] at hd
              exact not_top_lt hd
        · rw [if_neg hd] at h
          refine ih _ _ _ _ _ h hlen (by omega) hacc_n ?_
          intro p hp
          obtain ⟨k, hk, hkp⟩ := hinv p hp
          exact ⟨k, by omega, hkp⟩
      · rw [if_neg hb] at h
        injection h with h
        subst h
        have : n_acc = n_samples := le_antisymm hacc_n (not_lt.mp hb)
        exact ⟨by rw [hlen, this], by dsimp only; omega, hinv⟩

/-- C4: whenever `Rejection.run` terminates it returns exactly
`n_samples` accepted parameter vectors, each accepted on a draw whose
recorded distance was strictly less than `eps`, and the reported total
simulation count is at least `n_samples`. -/
theorem C4_rejection_run (env : Env) (obs : Option Vec) (eps : Flt)
    (n_samples fuel : ℕ) (out : List Vec × List Flt × ℕ)
    (h : Rejection.run env obs eps n_samples fuel = some out) :
    out.1.length = n_samples ∧ n_samples ≤ out.2.2 ∧
      ∀ p ∈ out.1, ∃ k, k < out.2.2 ∧ p = env.priorGen k ∧
        calc_dist (env.simModel k (env.priorGen k)) obs < eps := by
  obtain ⟨h1, h2, h3⟩ := Rejection.runAux_spec env obs eps n_samples fuel
    [] [] 0 0 out h rfl (by omega) (by omega) (by simp)
  refine ⟨h1, h2, ?_⟩
  intro p hp
  obtain ⟨k, hk1, hk2, _, hk4⟩ := h3 p hp
  exact ⟨k, hk1, hk2, hk4⟩

/-! ### MCMC sampler -/

lemma vadd_smul_zero (cur : Vec) (r : Vec) (h : r.length = cur.length) :
    vadd cur (smul 0 r) = cur := by
  induction cur generalizing r with
  | nil => simp [vadd]
  | cons c t ih =>
      cases r with
      | nil => simp at h
      | cons x rs =>
          simp only [smul, List.map_cons, vadd, List.zipWith_cons_cons,
            zero_mul, add_zero]
          rw [List.length_cons, List.length_cons, Nat.add_right_cancel_iff]
            at h
          congr 1
          simpa [vadd, smul] using ih rs h

lemma MCMC.runAux_length (env : Env) (obs : Option Vec) (eps : Flt)
    (step : ℝ) :
    ∀ n i cur curlp acc na,
      ((MCMC.runAux env obs eps step n i cur curlp acc na).1).length =
        acc.length + n := by
  intro n
  induction n with
  | zero => intro i cur curlp acc na; rw [MCMC.runAux]; simp
  | succ n ih =>
      intro i cur curlp acc na
      rw [MCMC.runAux]
      dsimp only
      by_cases hd : calc_dist (env.simModel i (vadd cur
          (smul step (env.normal i)))) obs < eps
      · rw [if_pos hd]
        by_cases hu : env.unif i < Real.exp (env.priorEval (vadd cur
            (smul step (env.normal i))) - curlp)
        · rw [if_pos hu, ih]
          simp only [List.length_append, List.length_cons, List.length_nil]
          omega
        · rw [if_neg hu, ih]
          simp only [List.length_append, List.length_cons, List.length_nil]
          omega
      · rw [if_neg hd, ih]
        simp only [List.length_append, List.length_cons, List.length_nil]
        omega

lemma MCMC.runAux_const (env : Env) (obs : Option Vec) (cur : Vec)
    (hlen : ∀ j, (env.normal j).length = cur.length) :
    ∀ n i curlp acc na,
      (∀ p ∈ acc, p = cur) →
      ∀ p ∈ (MCMC.runAux env obs ⊤ 0 n i cur curlp acc na).1, p = cur := by
  intro n
  induction n with
  | zero =>
      intro i curlp acc na hacc
      rw [MCMC.runAux]
      exact hacc
  | succ n ih =>
      intro i curlp acc na hacc
      rw [MCMC.runAux]
      dsimp only
      have hprop : vadd cur (smul 0 (env.normal i)) = cur :=
        vadd_smul_zero cur (env.normal i) (hlen i)
      rw [hprop]
      have hacc1 : ∀ p ∈ acc ++ [cur], p = cur := by
        intro p hp
        rcases List.mem_append.mp hp with hp | hp
        · exact hacc p hp
        · exact List.mem_singleton.mp hp
      by_cases hd : calc_dist (env.simModel i cur) obs < ⊤
      · rw [if_pos hd]
        by_cases hu : env.unif i < Real.exp (env.priorEval cur - curlp)
        · rw [if_pos hu]
          exact ih (i + 1) (env.priorEval cur) (acc ++ [cur]) (na + 1) hacc1
        · rw [if_neg hu]
          exact ih (i + 1) curlp (acc ++ [cur]) na hacc1
      · rw [if_neg hd]
        exact ih (i + 1) curlp (acc ++ [cur]) na hacc1

/-- C5: the chain returned by `MCMC.run` always has length exactly
`n_samples`; and with `eps = inf` and `step = 0` every element of the
chain equals the initial state exactly (acceptance replaces the state
with an identical proposal, rejection repeats it). -/
theorem C5_mcmc_run (env : Env) (obs : Option Vec) (eps : Flt) (step : ℝ)
    (n_samples : ℕ) (init_ps : Vec)
    (hlen : ∀ j, (env.normal j).length = init_ps.length) :
    (MCMC.run env obs eps step n_samples init_ps).1.length = n_samples ∧
      ∀ p ∈ (MCMC.run env obs ⊤ 0 n_samples init_ps).1, p = init_ps := by
  constructor
  · rw [MCMC.run, MCMC.runAux_length]
    simp
  · exact MCMC.runAux_const env obs init_ps hlen n_samples 0
      (env.priorEval init_ps) [] 0 (by simp)

/-! ### Initial SMC population (claim C3) -/

lemma foldl_max_mem (a : Flt) (t : List Flt) : t.foldl max a ∈ a :: t := by
  induction t generalizing a with
  | nil => simp
  | cons b t' ih =>
      rw [List.foldl_cons]
      rcases List.mem_cons.mp (ih (max a b)) with h' | h'
      · rw [h']
        rcases max_choice a b with h | h
        · rw [h]; exact List.mem_cons_self _ _
        · rw [h]
          exact List.mem_cons.mpr (Or.inr (List.mem_cons_self _ _))
      · exact List.mem_cons.mpr (Or.inr (List.mem_cons.mpr (Or.inr h')))

lemma le_foldl_max (a : Flt) (t : List Flt) :
    ∀ d ∈ a :: t, d ≤ t.foldl max a := by
  induction t generalizing a with
  | nil => intro d hd; rw [List.mem_singleton.mp hd]; rfl
  | cons b t' ih =>
      intro d hd
      rw [List.foldl_cons]
      rcases List.mem_cons.mp hd with h | h
      · subst h
        exact le_trans (le_max_left d b)
          (ih (max d b) (max d b) (List.mem_cons_self _ _))
      · rcases List.mem_cons.mp h with h | h
        · subst h
          exact le_trans (le_max_right a d)
            (ih (max a d) (max a d) (List.mem_cons_self _ _))
        · exact ih (max a b) d (List.mem_cons.mpr (Or.inr h))

lemma npMax_mem {l : List Flt} (h : l ≠ []) : npMax l ∈ l := by
  cases l with
  | nil => exact absurd rfl h
  | cons a t => exact foldl_max_mem a t

lemma le_npMax {l : List Flt} (h : l ≠ []) : ∀ d ∈ l, d ≤ npMax l := by
  cases l with
  | nil => exact absurd rfl h
  | cons a t => exact le_foldl_max a t

/-- C3: when `n_initial_round > n_particles`, `sample_initial_population`
returns the `n_quantile = floor((n_particles / n_initial_round) *
n_initial_round)` prior samples of smallest distance, in ascending order
of distance, and the tolerance it returns is the distance at rank
`n_quantile` of the ascending order; otherwise it returns all
`n_initial_round` samples and the maximum recorded distance. -/
theorem C3_initial_population (env : Env) (obs : Option Vec) (n_p n_r : ℕ) :
    (n_p < n_r →
      ∃ pairs rest : List (Vec × Flt),
        ((((List.range n_r).map env.priorGen).zip
          ((List.range n_r).map (fun i =>
            calc_dist (env.simModel i (env.priorGen i)) obs))).Perm
          (pairs ++ rest)) ∧
        ((pairs ++ rest).map Prod.snd).Sorted (· ≤ ·) ∧
        (SMC.sample_initial_population env obs n_p n_r).1 =
          pairs.map Prod.fst ∧
        pairs.length = Nat.floor (((n_p : ℚ) / (n_r : ℚ)) * (n_r : ℚ)) ∧
        (SMC.sample_initial_population env obs n_p n_r).2.2 =
          ((pairs ++ rest).map Prod.snd).getD
            (Nat.floor (((n_p : ℚ) / (n_r : ℚ)) * (n_r : ℚ))) ⊤) ∧
    (0 < n_r → n_r ≤ n_p →
      (SMC.sample_initial_population env obs n_p n_r).1 =
        (List.range n_r).map env.priorGen ∧
      (SMC.sample_initial_population env obs n_p n_r).2.2 ∈
        (List.range n_r).map (fun i =>
          calc_dist (env.simModel i (env.priorGen i)) obs) ∧
      ∀ dd ∈ (List.range n_r).map (fun i =>
          calc_dist (env.simModel i (env.priorGen i)) obs),
        dd ≤ (SMC.sample_initial_population env obs n_p n_r).2.2) := by
  constructor
  · intro hlt
    set ps := (List.range n_r).map env.priorGen with hps
    set ds := (List.range n_r).map (fun i =>
      calc_dist (env.simModel i (env.priorGen i)) obs) with hds
    set sorted := (ps.zip ds).mergeSort (fun a b => decide (a.2 ≤ b.2))
      with hsorted
    set nq := Nat.floor (((n_p : ℚ) / (n_r : ℚ)) * (n_r : ℚ)) with hnq
    have hnq_eq : nq = n_p := SMC.n_quantile_eq n_p n_r (by omega)
    have hres : SMC.sample_initial_population env obs n_p n_r =
        ((sorted.map Prod.fst).take nq, n_r,
          (sorted.map Prod.snd).getD nq ⊤) := by
      unfold SMC.sample_initial_population
      rw [if_pos hlt]
    refine ⟨sorted.take nq, sorted.drop nq, ?_, ?_, ?_, ?_, ?_⟩
    · rw [List.take_append_drop]
      exact (List.mergeSort_perm (ps.zip ds) _).symm
    · rw [List.take_append_drop]
      have hpw : sorted.Pairwise
          (fun a b : Vec × Flt => decide (a.2 ≤ b.2) = true) := by
        refine List.sorted_mergeSort ?_ ?_ (ps.zip ds)
        · intro a b c hab hbc
          simp only [decide_eq_true_eq] at hab hbc ⊢
          exact le_trans hab hbc
        · intro a b
          simp only [Bool.or_eq_true, decide_eq_true_eq]
          exact le_total _ _
      refine List.Pairwise.map Prod.snd ?_ hpw
      intro a b hab
      simpa using hab
    · rw [hres]
      exact (List.map_take Prod.fst sorted nq).symm
    · rw [List.length_take]
      have hlen : sorted.length = n_r := by
        rw [hsorted, (List.mergeSort_perm (ps.zip ds) _).length_eq]
        rw [List.length_zip, hps, hds]
        simp
      rw [hlen, hnq_eq]
      omega
    · rw [hres, List.take_append_drop]
  · intro hpos hle
    have hres : SMC.sample_initial_population env obs n_p n_r =
        ((List.range n_r).map env.priorGen, n_r,
          npMax ((List.range n_r).map (fun i =>
            calc_dist (env.simModel i (env.priorGen i)) obs))) := by
      unfold SMC.sample_initial_population
      rw [if_neg (by omega)]
    have hne : (List.range n_r).map (fun i =>
        calc_dist (env.simModel i (env.priorGen i)) obs) ≠ [] := by
      simp only [ne_eq, List.map_eq_nil_iff, List.range_eq_nil]
      omega
    rw [hres]
    exact ⟨rfl, npMax_mem hne, le_npMax hne⟩

/-! ### Which proposals the SMC inner loop accepts (claims C6, C9) -/

namespace SMC

/-- The proposal the inner loop of `sample_next_population` makes at draw
counter `r`: perturb the ancestor chosen by `discrete_sample` with the
Cholesky factor `std`. -/
def proposalAt (env : Env) (weights : List ℝ) (ps : List Vec) (std : Mat)
    (r : ℕ) : Vec :=
  vadd (ps.getD (discrete_sample weights (env.unif r)) [])
    (matVec std (env.normal r))

/-- The distance of the proposal made at draw counter `r` to the observed
data. -/
def distAt (env : Env) (weights : List ℝ) (ps : List Vec) (std : Mat)
    (obs : Option Vec) (r : ℕ) : Flt :=
  calc_dist (env.simModel r (proposalAt env weights ps std r)) obs

/-- `p` is the first proposal of a slot whose attempts start at draw
counter `r` that the tolerance test lets through: it is the proposal made
at draw `t1`, its distance is at most `eps`, and every earlier draw of
the slot had distance strictly above `eps`. -/
def FirstAccept (env : Env) (weights : List ℝ) (ps : List Vec) (std : Mat)
    (obs : Option Vec) (eps : Flt) (r t1 : ℕ) (p : Vec) : Prop :=
  r ≤ t1 ∧ p = proposalAt env weights ps std t1 ∧
    distAt env weights ps std obs t1 ≤ eps ∧
    ∀ s, r ≤ s → s < t1 → eps < distAt env weights ps std obs s

/-- `Slots env weights ps std obs eps r r2 l`: the particle list `l` is
produced by consecutive slots of the population loop, the first slot's
attempts starting at draw counter `r` and the last ending at `r2`, each
particle being the first acceptable proposal of its slot. -/
inductive Slots (env : Env) (weights : List ℝ) (ps : List Vec) (std : Mat)
    (obs : Option Vec) (eps : Flt) : ℕ → ℕ → List Vec → Prop
  | nil (r : ℕ) : Slots env weights ps std obs eps r r []
  | cons (r t1 r2 : ℕ) (p : Vec) (l : List Vec) :
      FirstAccept env weights ps std obs eps r t1 p →
      Slots env weights ps std obs eps (t1 + 1) r2 l →
      Slots env weights ps std obs eps r r2 (p :: l)

lemma attemptLoop_exit (env : Env) (weights : List ℝ) (ps : List Vec)
    (std : Mat) (obs : Option Vec) (eps : Flt) (fuel : ℕ) (dist : Flt)
    (cur : Vec) (r n : ℕ) (h : ¬ eps < dist) :
    attemptLoop env weights ps std obs eps fuel dist cur r n =
      some (cur, r, n) := by
  cases fuel <;> rw [attemptLoop] <;> rw [if_neg h]

lemma attemptLoop_spec (env : Env) (weights : List ℝ) (ps : List Vec)
    (std : Mat) (obs : Option Vec) (eps : Flt) :
    ∀ fuel (dist : Flt) (cur : Vec) (r n : ℕ)
      (out : Vec × ℕ × ℕ),
      attemptLoop env weights ps std obs eps fuel dist cur r n = some out →
      eps < dist →
      ∃ t1, out.2.1 = t1 + 1 ∧
        FirstAccept env weights ps std obs eps r t1 out.1 := by
  intro fuel
  induction fuel with
  | zero =>
      intro dist cur r n out h hd
      rw [attemptLoop, if_pos hd] at h
      exact absurd h (by simp)
  | succ fuel ih =>
      intro dist cur r n out h hd
      rw [attemptLoop, if_pos hd] at h
      dsimp only at h
      rw [show vadd (ps.getD (discrete_sample weights (env.unif r)) [])
            (matVec std (env.normal r)) = proposalAt env weights ps std r
            from rfl,
          show calc_dist (env.simModel r (proposalAt env weights ps std r))
            obs = distAt env weights ps std obs r from rfl] at h
      by_cases hd2 : eps < distAt env weights ps std obs r
      · have := ih _ _ _ _ _ h hd2
        obtain ⟨t1, ht1, hr, hp, hdist, hbefore⟩ := this
        refine ⟨t1, ht1, by omega, hp, hdist, ?_⟩
        intro s hs1 hs2
        rcases Nat.eq_or_lt_of_le hs1 with hs | hs
        · rw [← hs]
          exact hd2
        · exact hbefore s hs hs2
      · rw [attemptLoop_exit env weights ps std obs eps fuel _ _ _ _ hd2]
          at h
        injection h with h
        subst h
        exact ⟨r, rfl, le_refl r, rfl, not_lt.mp hd2,
          fun s h1 h2 => by omega⟩

lemma slotLoop_slots (env : Env) (weights : List ℝ) (ps : List Vec)
    (std : Mat) (obs : Option Vec) (eps : Flt) (lw : List ℝ)
    (afuel : ℕ) (heps : eps ≠ ⊤) :
    ∀ k i r n accP accW (out : List Vec × List ℝ × ℕ × ℕ),
      slotLoop env weights ps std obs eps lw afuel k i r n accP accW =
        some out →
      ∃ newP newW, out.1 = accP ++ newP ∧ out.2.1 = accW ++ newW ∧
        Slots env weights ps std obs eps r out.2.2.1 newP := by
  intro k
  induction k with
  | zero =>
      intro i r n accP accW out h
      rw [slotLoop] at h
      injection h with h
      subst h
      exact ⟨[], [], by simp, by simp, Slots.nil r⟩
  | succ k ih =>
      intro i r n accP accW out h
      rw [slotLoop] at h
      cases hatt : attemptLoop env weights ps std obs eps afuel ⊤
          (env.empty i) r n with
      | none => rw [hatt] at h; exact absurd h (by simp)
      | some res =>
          obtain ⟨p, r1, n1⟩ := res
          rw [hatt] at h
          dsimp only at h
          obtain ⟨t1, ht1, hfa⟩ := attemptLoop_spec env weights ps std obs
            eps afuel ⊤ (env.empty i) r n (p, r1, n1) hatt
            (lt_top_iff_ne_top.mpr heps)
          dsimp only at ht1 hfa
          obtain ⟨newP, newW, hP, hW, hslots⟩ := ih _ _ _ _ _ _ h
          refine ⟨p :: newP, (env.priorEval p - logsumexp
            (List.zipWith (· + ·) lw (ps.map (fun pj => -(1 / 2) *
              (((env.solveTri std (vsub p pj)).map
                (fun x => x ^ 2)).sum))))) :: newW, ?_, ?_, ?_⟩
          · rw [hP]
            simp
          · rw [hW]
            simp
          · subst ht1
            exact Slots.cons r t1 _ p newP hfa hslots

end SMC

/-- C6 (amended): whenever `eps` is finite — so that the `while dist >
eps` loop actually proposes — every particle placed in a new population
by `sample_next_population` is the first proposal for its slot whose
simulated dataset has distance **at most** `eps` (the test is
`dist > eps`, so a proposal at distance exactly `eps` is accepted; the
original claim's strict `<` fails, see the counterexample). -/
theorem C6_first_acceptable_proposal (env : Env) (ps : List Vec)
    (lw : List ℝ) (obs : Option Vec) (eps : Flt) (r fuel : ℕ)
    (out : List Vec × List ℝ × ℕ × ℕ) (heps : eps ≠ ⊤)
    (h : SMC.sample_next_population env ps lw obs eps r fuel = some out) :
    SMC.Slots env (lw.map Real.exp) ps (env.chol (SMC.covMat ps)) obs eps
      r out.2.2.2 out.1 := by
  unfold SMC.sample_next_population at h
  dsimp only at h
  cases hsl : SMC.slotLoop env (lw.map Real.exp) ps
      (env.chol (SMC.covMat ps)) obs eps lw fuel ps.length 0 r 0 [] [] with
  | none => rw [hsl] at h; exact absurd h (by simp)
  | some res =>
      obtain ⟨new_ps, accW, r1, n_sims⟩ := res
      rw [hsl] at h
      dsimp only at h
      obtain ⟨newP, newW, hP, hW, hslots⟩ := SMC.slotLoop_slots env
        (lw.map Real.exp) ps (env.chol (SMC.covMat ps)) obs eps lw fuel
        heps ps.length 0 r 0 [] [] (new_ps, accW, r1, n_sims) hsl
      dsimp only at hP hW hslots
      rw [List.nil_append] at hP
      injection h with h
      subst h
      dsimp only
      rw [hP]
      exact hslots

/-- C9: `calc_dist` maps the absent sentinel to `inf` in either argument
position, and a candidate whose simulation fails is never accepted: in
the rejection sampler every accepted sample's accepting draw simulated
successfully (for every `eps`, `inf` included, since the test `dist <
eps` is strict); in the MCMC sampler a failed simulation leaves the
state, the log prior and the acceptance counter unchanged and appends the
previous state to the chain; in SMC with finite `eps` the accepting draw
of every slot simulated successfully, and with `eps = inf` the proposal
loop returns before proposing or simulating any candidate at all. -/
theorem C9_failed_simulation_never_accepted :
    (∀ x : Option Vec, calc_dist none x = ⊤ ∧ calc_dist x none = ⊤) ∧
    (∀ (env : Env) (obs : Option Vec) (eps : Flt) (n_samples fuel : ℕ)
      (out : List Vec × List Flt × ℕ),
      Rejection.run env obs eps n_samples fuel = some out →
      ∀ p ∈ out.1, ∃ k, k < out.2.2 ∧ p = env.priorGen k ∧
        env.simModel k (env.priorGen k) ≠ none) ∧
    (∀ (env : Env) (obs : Option Vec) (eps : Flt) (step : ℝ)
      (n i : ℕ) (cur : Vec) (curlp : ℝ) (acc : List Vec) (na : ℕ),
      env.simModel i (vadd cur (smul step (env.normal i))) = none →
      MCMC.runAux env obs eps step (n + 1) i cur curlp acc na =
        MCMC.runAux env obs eps step n (i + 1) cur curlp (acc ++ [cur]) na) ∧
    (∀ (env : Env) (weights : List ℝ) (ps : List Vec) (std : Mat)
      (obs : Option Vec) (eps : Flt) (r t1 : ℕ) (p : Vec),
      eps ≠ ⊤ → SMC.FirstAccept env weights ps std obs eps r t1 p →
      env.simModel t1 p ≠ none) ∧
    (∀ (env : Env) (weights : List ℝ) (ps : List Vec) (std : Mat)
      (obs : Option Vec) (fuel : ℕ) (cur : Vec) (r n : ℕ),
      SMC.attemptLoop env weights ps std obs ⊤ fuel ⊤ cur r n =
        some (cur, r, n)) := by
  refine ⟨?_, ?_, ?_, ?_, ?_⟩
  · intro x
    exact ⟨calc_dist_none_left x, calc_dist_none_right x⟩
  · intro env obs eps n_samples fuel out h p hp
    obtain ⟨_, _, h3⟩ := Rejection.runAux_spec env obs eps n_samples fuel
      [] [] 0 0 out h rfl (by omega) (by omega) (by simp)
    obtain ⟨k, hk1, hk2, hk3, _⟩ := h3 p hp
    exact ⟨k, hk1, hk2, hk3⟩
  · intro env obs eps step n i cur curlp acc na hnone
    rw [MCMC.runAux]
    dsimp only
    rw [hnone, calc_dist_none_left]
    rw [if_neg (not_top_lt)]
  · intro env weights ps std obs eps r t1 p heps hfa
    obtain ⟨_, hp, hdist, _⟩ := hfa
    intro hnone
    rw [SMC.distAt, ← hp, hnone, calc_dist_none_left, top_le_iff] at hdist
    exact heps hdist
  · intro env weights ps std obs fuel cur r n
    exact SMC.attemptLoop_exit env weights ps std obs ⊤ fuel ⊤ cur r n
      (lt_irrefl ⊤)

namespace SMC

/-- `runLoop` only appends to the history, so the first stored log-weight
vector survives to the returned history. -/
lemma runLoop_head (env : Env) (obs : Option Vec) (d : ℝ)
    (n_p budget : ℕ) (essmin : ℝ) :
    ∀ fuel ps lw eps n_sims r hist out (v : List ℝ) (w : List Vec),
      runLoop env obs d n_p budget essmin fuel ps lw eps n_sims r hist =
        some out →
      hist.all_log_weights.head? = some v →
      hist.all_ps.head? = some w →
      out.all_log_weights.head? = some v ∧ out.all_ps.head? = some w := by
  intro fuel
  induction fuel with
  | zero =>
      intro ps lw eps n_sims r hist out v w h hv hw
      rw [runLoop] at h
      by_cases hb : n_sims < budget
      · rw [if_pos hb] at h; exact absurd h (by simp)
      · rw [if_neg hb] at h; injection h with h; subst h; exact ⟨hv, hw⟩
  | succ fuel ih =>
      intro ps lw eps n_sims r hist out v w h hv hw
      rw [runLoop] at h
      by_cases hb : n_sims < budget
      · rw [if_pos hb] at h
        dsimp only at h
        cases hsnp : sample_next_population env ps lw obs
            (eps.map (fun x => x * d)) r fuel with
        | none => rw [hsnp] at h; exact absurd h (by simp)
        | some res =>
            obtain ⟨ps1, lw1, nn, r1⟩ := res
            rw [hsnp] at h
            dsimp only at h
            have hv1 : (hist.all_log_weights ++
                [if -(logsumexp (lw1.map fun w => 2 * w)) -
                    Real.log (n_p : ℝ) < Real.log essmin then
                  List.replicate n_p (-Real.log (n_p : ℝ)) else lw1]).head? =
                some v := by
              rw [List.head?_append_of_ne_nil]
              · exact hv
              · intro hnil
                rw [hnil] at hv
                exact absurd hv (by simp)
            have hw1 : (hist.all_ps ++
                [if -(logsumexp (lw1.map fun w => 2 * w)) -
                    Real.log (n_p : ℝ) < Real.log essmin then
                  resample_population env ps1 lw1 r1 else ps1]).head? =
                some w := by
              rw [List.head?_append_of_ne_nil]
              · exact hw
              · intro hnil
                rw [hnil] at hw
                exact absurd hw (by simp)
            by_cases hdeg : -(logsumexp (lw1.map fun w => 2 * w)) -
                Real.log (n_p : ℝ) < Real.log essmin
            · rw [if_pos hdeg, if_pos hdeg, if_pos hdeg] at h
              rw [if_pos hdeg] at hv1 hw1
              by_cases hstop : budget ≤ n_sims + nn
              · rw [if_pos hstop] at h
                injection h with h
                subst h
                exact ⟨hv1, hw1⟩
              · rw [if_neg hstop] at h
                exact ih _ _ _ _ _ _ _ _ _ h hv1 hw1
            · rw [if_neg hdeg, if_neg hdeg, if_neg hdeg] at h
              rw [if_neg hdeg] at hv1 hw1
              by_cases hstop : budget ≤ n_sims + nn
              · rw [if_pos hstop] at h
                injection h with h
                subst h
                exact ⟨hv1, hw1⟩
              · rw [if_neg hstop] at h
                exact ih _ _ _ _ _ _ _ _ _ h hv1 hw1
      · rw [if_neg hb] at h; injection h with h; subst h; exact ⟨hv, hw⟩

end SMC

/-! ### Concrete environments exhibiting particular runs -/

/-- An environment for two-particle SMC runs.  The prior proposes `[0]`
on draw 0 and `[4]` afterwards, so the initial population is
`[[0], [4]]` and the only covariance matrix the runs below feed to the
Cholesky oracle is `2 * ((0 + 16)/2 - 2^2) = [[8]]`, which is positive
definite; `chol` returns `[[sqrt 8]]`, the factor `np.linalg.cholesky`
actually produces for `[[8]]`, and `solveTri` performs the true forward
substitution `v / sqrt 8` against that factor.  The simulator lands at
distance 1 from the observation `[0]` on draws 0–3 and at distance 0
afterwards; the normal draws are `[0]`, so proposals coincide with their
ancestor `[0]`. -/
def env1 : Env where
  priorGen i := if i = 0 then [0] else [4]
  priorEval _ := 0
  simModel t _ := if t < 4 then some [1] else some [0]
  unif _ := 0
  normal _ := [0]
  chol _ := [[Real.sqrt 8]]
  solveTri _ v := [v.headD 0 / Real.sqrt 8]
  empty _ := [0]
  emptyW _ := 0

/-- An environment whose simulator always returns the observation `[0]`
exactly, so that every recorded distance — and hence the initial
tolerance — is 0.  Every run and call below that uses `env2` terminates
before any population-construction step, so the linear-algebra kernels
`chol` and `solveTri` are never consulted (they are set to the identity
to make this explicit: no successful factorisation of a singular
covariance is ever pretended). -/
def env2 : Env where
  priorGen _ := [0]
  priorEval _ := 0
  simModel _ _ := some [0]
  unif _ := 0
  normal _ := [0]
  chol m := m
  solveTri _ v := v
  empty _ := [0]
  emptyW _ := 0

/-- An environment whose simulator always fails (returns the absent
sentinel).  Only its `simModel`, `unif` and `normal` fields are ever
consulted below (by the MCMC step); `chol` and `solveTri` are the
identity and unused. -/
def env3 : Env where
  priorGen _ := [0]
  priorEval _ := 0
  simModel _ _ := none
  unif _ := 0
  normal _ := [0]
  chol m := m
  solveTri _ v := v
  empty _ := [0]
  emptyW _ := 0

/-- Like `env1` — the same two-particle initial population `[[0], [4]]`
with its positive-definite covariance `[[8]]` and honest Cholesky oracle
— but the simulator always returns the observation `[0]` exactly, so
every recorded distance, and hence the initial tolerance, is 0. -/
def env4 : Env where
  priorGen i := if i = 0 then [0] else [4]
  priorEval _ := 0
  simModel _ _ := some [0]
  unif _ := 0
  normal _ := [0]
  chol _ := [[Real.sqrt 8]]
  solveTri _ v := [v.headD 0 / Real.sqrt 8]
  empty _ := [0]
  emptyW _ := 0

lemma init_env1_eval :
    SMC.sample_initial_population env1 (some [0]) 2 2 =
      ([[0], [4]], 2, ((1 : ℝ) : Flt)) := by
  norm_num [SMC.sample_initial_population, env1, calc_dist, dot, vsub,
    npMax, List.range_succ]

lemma run_env1_n_sims :
    (SMC.run env1 (some [0]) 2 (1 / 2) 2 3 1 9).map SMC.History.all_n_sims =
      some [2, 6] := by
  norm_num [SMC.run, SMC.sample_initial_population, SMC.runLoop,
    SMC.sample_next_population, SMC.slotLoop, SMC.attemptLoop, env1,
    calc_dist, dot, vsub, vadd, matVec, npMax, discrete_sample, dsAux,
    List.range_succ, List.replicate_succ, Real.exp_pos]

lemma run_env1_eps :
    (SMC.run env1 (some [0]) 2 (1 / 2) 2 3 1 9).map SMC.History.all_eps =
      some [((1 : ℝ) : Flt), ((1 / 2 : ℝ) : Flt)] := by
  norm_num [SMC.run, SMC.sample_initial_population, SMC.runLoop,
    SMC.sample_next_population, SMC.slotLoop, SMC.attemptLoop, env1,
    calc_dist, dot, vsub, vadd, matVec, npMax, discrete_sample, dsAux,
    List.range_succ, List.replicate_succ, Real.exp_pos]

lemma run_env4_eps :
    (SMC.run env4 (some [0]) 2 (1 / 2) 2 3 1 9).map SMC.History.all_eps =
      some [((0 : ℝ) : Flt), ((0 : ℝ) : Flt)] := by
  norm_num [SMC.run, SMC.sample_initial_population, SMC.runLoop,
    SMC.sample_next_population, SMC.slotLoop, SMC.attemptLoop, env4,
    calc_dist, dot, vsub, vadd, matVec, npMax, discrete_sample, dsAux,
    List.range_succ, List.replicate_succ, Real.exp_pos]

lemma snp_env1_first :
    (SMC.sample_next_population env1 [[0], [4]] [-Real.log 2, -Real.log 2]
        (some [0]) ((1 : ℝ) : Flt) 0 5).map (fun o => (o.1, o.2.2)) =
      some ([[0], [0]], 2, 2) := by
  norm_num [SMC.sample_next_population, SMC.slotLoop, SMC.attemptLoop,
    env1, calc_dist, dot, vsub, vadd, matVec, discrete_sample, dsAux,
    Real.exp_pos]

lemma rej_env2_eval :
    Rejection.run env2 (some [0]) ((1 : ℝ) : Flt) 1 1 =
      some ([[0]], [((0 : ℝ) : Flt)], 1) := by
  norm_num [Rejection.run, Rejection.runAux, env2, calc_dist, dot, vsub]

lemma run_env2_budget1_eval :
    SMC.run env2 (some [0]) 1 (1 / 2) 2 1 1 9 =
      some ⟨[[[0]]], [[-Real.log 2, -Real.log 2]], [((0 : ℝ) : Flt)],
        [0], [1]⟩ := by
  norm_num [SMC.run, SMC.sample_initial_population, SMC.runLoop,
    env2, calc_dist, dot, vsub, npMax, List.range_succ,
    List.replicate_succ]

/-- C1 (code bug): the source's `SMC.run` driver carries an
`except SimulationBudgetExceeded` handler, but that exception name is
defined nowhere and `sample_next_population` — which receives no budget
argument — never raises it, so no check interrupts a
population-construction step.  In `env1` the two-particle initial
population `[[0], [4]]` has the positive-definite covariance `[[8]]`
(its Cholesky factorisation succeeds), and only 1 of the 3 budgeted
simulations remains when the second iteration starts; yet the population
step runs 4 more simulations to completion, the over-budget iteration is
still recorded, and the run ends with cumulative simulation count
6 > 3 — contradicting the claimed `BudgetExhausted` abort, the
discarding of the in-progress iteration, and the bound
`n_sims ≤ n_sims_budget`. -/
theorem C1_budget_not_enforced :
    (SMC.run env1 (some [0]) 2 (1 / 2) 2 3 1 9).map SMC.History.all_n_sims =
      some [2, 6] ∧ ¬ (6 ≤ 3) :=
  ⟨run_env1_n_sims, by norm_num⟩

/-- C6 (counterexample): on the two-particle population `[[0], [4]]`
(covariance `[[8]]`, positive definite, honest Cholesky oracle) with
`eps = 1`, `sample_next_population` performs exactly 2 simulations for
its 2 slots — so each slot accepted its very first proposal — and the
distances recorded at those accepting draws (draws 0 and 1, both at the
proposal `[0]`) equal `1 = eps` exactly; the claim's strict inequality
`distance < eps` is false for these accepted particles, because the
source's loop test is `dist > eps`. -/
theorem C6_counterexample :
    (SMC.sample_next_population env1 [[0], [4]] [-Real.log 2, -Real.log 2]
        (some [0]) ((1 : ℝ) : Flt) 0 5).map (fun o => (o.1, o.2.2)) =
      some ([[0], [0]], 2, 2) ∧
    calc_dist (env1.simModel 0 [0]) (some [0]) = ((1 : ℝ) : Flt) ∧
    calc_dist (env1.simModel 1 [0]) (some [0]) = ((1 : ℝ) : Flt) ∧
    ¬ (((1 : ℝ) : Flt) < ((1 : ℝ) : Flt)) := by
  refine ⟨snp_env1_first, ?_, ?_, by simp⟩ <;>
    norm_num [env1, calc_dist, dot, vsub]

/-- C8 (counterexample): in `env4` — the same positive-definite
two-particle population as `env1`, Cholesky succeeding — every
simulation hits the observation exactly, so the initial tolerance is `0`
and decaying it leaves it at `0`: the completed two-iteration run
records the tolerance sequence `[0, 0]`, which is not strictly
decreasing even though `0 < eps_decay = 1/2 < 1`. -/
theorem C8_counterexample :
    (SMC.run env4 (some [0]) 2 (1 / 2) 2 3 1 9).map SMC.History.all_eps =
      some [((0 : ℝ) : Flt), ((0 : ℝ) : Flt)] ∧
    ¬ ([((0 : ℝ) : Flt), ((0 : ℝ) : Flt)].Chain' (fun a b => b < a)) := by
  refine ⟨run_env4_eps, ?_⟩
  simp

/-- C10: the first entry of `all_log_weights` is always
`np.full(n_particles, -log n_particles)` — length `n_particles`, the
caller-supplied population size — while the first entry of `all_ps` is
whatever `sample_initial_population` returned; at a concrete run with
`n_initial_round = 1 ≤ n_particles = 2` the stored initial population has
length 1 but its stored log-weights have length 2. -/
theorem C10_first_weights_full_length :
    (∀ (env : Env) (obs : Option Vec) (n_r : ℕ) (d : ℝ) (n_p budget : ℕ)
      (essmin : ℝ) (fuel : ℕ) (hist : SMC.History),
      SMC.run env obs n_r d n_p budget essmin fuel = some hist →
      hist.all_log_weights.head? =
        some (List.replicate n_p (-Real.log (n_p : ℝ))) ∧
      hist.all_ps.head? =
        some (SMC.sample_initial_population env obs n_p n_r).1) ∧
    ((SMC.run env2 (some [0]) 1 (1 / 2) 2 1 1 9).map
        (fun h => (h.all_ps.head?.map List.length,
          h.all_log_weights.head?.map List.length)) =
      some (some 1, some 2) ∧ (1 : ℕ) ≠ 2) := by
  constructor
  · intro env obs n_r d n_p budget essmin fuel hist h
    unfold SMC.run at h
    dsimp only at h
    exact SMC.runLoop_head env obs d n_p budget essmin fuel _ _ _ _ _ _
      _ _ _ h rfl rfl
  · rw [run_env2_budget1_eval]
    norm_num

/-! ### Witnesses -/

theorem C2_witness : logsumexp [-Real.log 2, -Real.log 2] = 0 := by
  have h := C2_all_log_weights_normalized env2 (some [0]) 1 (1 / 2) 2 1 1 9
    _ run_env2_budget1_eval (by norm_num)
  exact h [-Real.log 2, -Real.log 2] (by simp)

theorem C3_witness :
    (∃ pairs rest : List (Vec × Flt),
      ((((List.range 2).map env2.priorGen).zip
        ((List.range 2).map (fun i =>
          calc_dist (env2.simModel i (env2.priorGen i)) (some [0])))).Perm
        (pairs ++ rest)) ∧
      ((pairs ++ rest).map Prod.snd).Sorted (· ≤ ·) ∧
      (SMC.sample_initial_population env2 (some [0]) 1 2).1 =
        pairs.map Prod.fst ∧
      pairs.length = Nat.floor (((1 : ℚ) / (2 : ℚ)) * (2 : ℚ)) ∧
      (SMC.sample_initial_population env2 (some [0]) 1 2).2.2 =
        ((pairs ++ rest).map Prod.snd).getD
          (Nat.floor (((1 : ℚ) / (2 : ℚ)) * (2 : ℚ))) ⊤) ∧
    ((SMC.sample_initial_population env2 (some [0]) 2 1).1 =
        (List.range 1).map env2.priorGen ∧
      (SMC.sample_initial_population env2 (some [0]) 2 1).2.2 ∈
        (List.range 1).map (fun i =>
          calc_dist (env2.simModel i (env2.priorGen i)) (some [0])) ∧
      ∀ dd ∈ (List.range 1).map (fun i =>
          calc_dist (env2.simModel i (env2.priorGen i)) (some [0])),
        dd ≤ (SMC.sample_initial_population env2 (some [0]) 2 1).2.2) := by
  exact ⟨(C3_initial_population env2 (some [0]) 1 2).1 (by norm_num),
    (C3_initial_population env2 (some [0]) 2 1).2 (by norm_num)
      (by norm_num)⟩

theorem C4_witness :
    ([[(0 : ℝ)]] : List Vec).length = 1 ∧ (1 : ℕ) ≤ 1 ∧
    ∃ k, k < 1 ∧ ([(0 : ℝ)] : Vec) = env2.priorGen k ∧
      calc_dist (env2.simModel k (env2.priorGen k)) (some [0]) <
        ((1 : ℝ) : Flt) := by
  obtain ⟨h1, h2, h3⟩ := C4_rejection_run env2 (some [0]) ((1 : ℝ) : Flt) 1 1
    _ rej_env2_eval
  exact ⟨h1, h2, h3 [0] (by simp)⟩

theorem C5_witness :
    (MCMC.run env2 (some [0]) ((1 : ℝ) : Flt) 0 3 [0]).1.length = 3 ∧
    ∀ p ∈ (MCMC.run env2 (some [0]) ⊤ 0 3 [0]).1, p = ([0] : Vec) :=
  C5_mcmc_run env2 (some [0]) ((1 : ℝ) : Flt) 0 3 [0]
    (fun _ => by simp [env2])

theorem C6_witness :
    SMC.Slots env1 ([-Real.log 2, -Real.log 2].map Real.exp) [[0], [4]]
      (env1.chol (SMC.covMat [[0], [4]])) (some [0]) ((1 : ℝ) : Flt) 0 2
      [[0], [0]] := by
  obtain ⟨out, hout, hproj⟩ := Option.map_eq_some'.mp snp_env1_first
  have h := C6_first_acceptable_proposal env1 [[0], [4]]
    [-Real.log 2, -Real.log 2] (some [0]) ((1 : ℝ) : Flt) 0 5 out
    (by simp) hout
  obtain ⟨h1, h2⟩ := Prod.ext_iff.mp hproj
  have h3 : out.2.2.2 = 2 := by rw [h2]
  rw [h1, h3] at h
  exact h

theorem C7_witness :
    (-(logsumexp ([(0 : ℝ)].map (fun w => 2 * w))) -
      Real.log ((1 : ℕ) : ℝ) ≤ 0) ∧ (0 : ℝ) ≤ 0 := by
  refine ⟨C7_log_ess_nonpositive.1 [0] 1 (by simp) (by simp) ?_, ?_⟩
  · simp [logsumexp]
  · exact C7_log_ess_nonpositive.2 env2 (some [0]) 1 (1 / 2) 2 1 1 9 _
      run_env2_budget1_eval (by norm_num) 0 (by simp)

theorem C8_witness :
    List.Chain' (fun a b : Flt => b < a)
      [((1 : ℝ) : Flt), ((1 / 2 : ℝ) : Flt)] := by
  obtain ⟨hist, hrun, heps⟩ := Option.map_eq_some'.mp run_env1_eps
  have h := C8_all_eps_strictly_decreasing env1 (some [0]) 2 (1 / 2) 2 3 1 9
    hist 1 hrun (by norm_num) (by norm_num) ?_ (by norm_num)
  · rw [heps] at h
    exact h
  · rw [init_env1_eval]

theorem C9_witness :
    (calc_dist none (some [0]) = ⊤ ∧ calc_dist (some [0]) none = ⊤) ∧
    (∃ k, k < 1 ∧ ([(0 : ℝ)] : Vec) = env2.priorGen k ∧
      env2.simModel k (env2.priorGen k) ≠ none) ∧
    (MCMC.runAux env3 (some [0]) ⊤ 0 1 0 [0] 0 [] 0 =
      MCMC.runAux env3 (some [0]) ⊤ 0 0 1 [0] 0 [[0]] 0) ∧
    env1.simModel 0 [0] ≠ none ∧
    SMC.attemptLoop env1 [1] [[0]] [[0]] (some [0]) ⊤ 3 ⊤ [0] 0 0 =
      some ([0], 0, 0) := by
  obtain ⟨c1, c2, c3, c4, c5⟩ := C9_failed_simulation_never_accepted
  refine ⟨c1 (some [0]), ?_, ?_, ?_, ?_⟩
  · exact c2 env2 (some [0]) ((1 : ℝ) : Flt) 1 1 _ rej_env2_eval [0]
      (by simp)
  · exact c3 env3 (some [0]) ⊤ 0 0 0 [0] 0 [] 0 rfl
  · refine c4 env1 [1] [[0]] [[0]] (some [0]) ((1 : ℝ) : Flt) 0 0 [0]
      (by simp) ?_
    refine ⟨le_refl 0, ?_, ?_, fun s h1 h2 => by omega⟩
    · norm_num [SMC.proposalAt, env1, discrete_sample, dsAux, vadd,
        matVec, dot]
    · norm_num [SMC.distAt, SMC.proposalAt, env1, discrete_sample, dsAux,
        vadd, matVec, dot, calc_dist, vsub]
  · exact c5 env1 [1] [[0]] [[0]] (some [0]) 3 [0] 0 0

theorem C10_witness :
    (SMC.run env2 (some [0]) 1 (1 / 2) 2 1 1 9).map
        (fun h => h.all_log_weights.head?) =
      some (some (List.replicate 2 (-Real.log ((2 : ℕ) : ℝ)))) := by
  have h := C10_first_weights_full_length.1 env2 (some [0]) 1 (1 / 2) 2 1 1
    9 _ run_env2_budget1_eval
  rw [run_env2_budget1_eval]
  exact congrArg some h.1

end ABC
